import Mathlib

/-!
Verification of the homography / multi-view patch geometry engine of the
`utexas_sterling_patern` repository (files `scripts/homography.py`,
`scripts/homography_from_chessboard.py`, `scripts/camera_intrinsics.py`,
`scripts/vicreg_dataset.py`).

Numerical code is embedded over an arbitrary `LinearOrderedField F`
(instantiated at `ℚ` for concrete evaluations).  External collaborators
(OpenCV warps, corner detection, LAPACK SVD, the square root used by
`np.linalg.norm`) are passed as explicit function parameters; everything
the repository itself computes is translated directly from the source.
-/

namespace Sterling

open Matrix

variable {F : Type} [LinearOrderedField F]

/-- Vectors of length 3 (numpy 1-D arrays). -/
abbrev Vec3 (F : Type) := Fin 3 → F

/-- Real 3×3 matrices. -/
abbrev Mat3 (F : Type) := Matrix (Fin 3) (Fin 3) F

/-- Real 4×4 matrices. -/
abbrev Mat4 (F : Type) := Matrix (Fin 4) (Fin 4) F

/-- Elementwise dot product of 3-vectors (`np.dot` on length-3 arrays). -/
def dot3 (a b : Vec3 F) : F := a 0 * b 0 + a 1 * b 1 + a 2 * b 2

/-- Sum of squares of a 3-vector; `np.linalg.norm v` is `sqrt (sumSq v)`. -/
def sumSq (a : Vec3 F) : F := dot3 a a

/-- Cross product of 3-vectors, as computed by `np.cross`. -/
def cross (a b : Vec3 F) : Vec3 F :=
  ![a 1 * b 2 - a 2 * b 1, a 2 * b 0 - a 0 * b 2, a 0 * b 1 - a 1 * b 0]

/-- Python `int(...)` applied to a real value: truncation toward zero. -/
def pyInt [FloorRing F] (q : F) : ℤ := if q < 0 then ⌈q⌉ else ⌊q⌋

/-- Upper-left 3×3 block `M[:3, :3]` of a 4×4 matrix. -/
def Rpart (M : Mat4 F) : Mat3 F := Matrix.of fun i j => M i.castSucc j.castSucc

/-- Translation column `M[:3, 3]` of a 4×4 matrix. -/
def Tpart (M : Mat4 F) : Vec3 F := fun i => M i.castSucc 3

/-- Numpy `np.min` over a list of values (0 on the empty list, which numpy rejects). -/
def npMinL : List F → F
  | [] => 0
  | x :: xs => xs.foldl min x

/-- Numpy `np.max` over a list of values (0 on the empty list, which numpy rejects). -/
def npMaxL : List F → F
  | [] => 0
  | x :: xs => xs.foldl max x

/-- Axis-aligned bounding box `[x_min, y_min, x_max, y_max]` as unpacked by
`does_overlap` in `vicreg_dataset.py`. -/
structure BBox (α : Type) where
  x_min : α
  y_min : α
  x_max : α
  y_max : α
deriving DecidableEq

/-- Embedding of `does_overlap` (`vicreg_dataset.py`, lines 87–97): two
axis-aligned bounding boxes overlap unless one lies strictly beyond the other
on either axis. -/
def does_overlap {α : Type} [LinearOrder α] (cur_bbox past_bbox : BBox α) : Bool :=
  !(cur_bbox.x_max < past_bbox.x_min || past_bbox.x_max < cur_bbox.x_min ||
    cur_bbox.y_max < past_bbox.y_min || past_bbox.y_max < cur_bbox.y_min)

/-- C3: the bounding-box overlap test is exactly the inclusive-boundary
interval test: `does_overlap A B` is true iff NOT
(`xmaxA < xminB` OR `xmaxB < xminA` OR `ymaxA < yminB` OR `ymaxB < yminA`);
in particular the boxes `[0,0,10,10]` and `[10,0,20,10]`, which touch exactly
at the edge `x = 10`, are classified as overlapping. -/
theorem c3_overlap_inclusive_boundary :
    (∀ A B : BBox ℤ, does_overlap A B = true ↔
      ¬(A.x_max < B.x_min ∨ B.x_max < A.x_min ∨
        A.y_max < B.y_min ∨ B.y_max < A.y_min)) ∧
    does_overlap (⟨0, 0, 10, 10⟩ : BBox ℤ) (⟨10, 0, 20, 10⟩ : BBox ℤ) = true := by
  constructor
  · intro A B
    simp [does_overlap, not_or, and_assoc]
  · decide

/-! ### Homogeneous / cartesian conversion (`homography.py`) -/

/-- Embedding of `cart_to_hom` (`homography.py`, lines 210–212): append a row
of ones below a 2×N matrix of column points. -/
def cart_to_hom {n : ℕ} (points : Matrix (Fin 2) (Fin n) F) : Matrix (Fin 3) (Fin n) F :=
  Matrix.of fun i j => if h : (i : ℕ) < 2 then points ⟨i, h⟩ j else 1

/-- Embedding of `hom_to_cart` (`homography.py`, lines 214–217): divide every
row elementwise by the last (`w`) row and drop the last row.  The source
performs the division unconditionally — there is no zero test and no error
path (numpy produces non-finite values on a zero `w`; in this field embedding
division by zero yields the junk value 0). -/
def hom_to_cart {n : ℕ} (points : Matrix (Fin 3) (Fin n) F) : Matrix (Fin 2) (Fin n) F :=
  Matrix.of fun i j => points i.castSucc j / points 2 j

/-- Error class postulated by the spec for degenerate homogeneous division.
No such class exists anywhere in the source. -/
inductive ProjErr where
  | degenerateProjection
deriving DecidableEq

/-- Spec-side definition (for refinement comparison only), following the
spec's words: `toCartesian` divides the first two coordinates by the third and
fails with `DegenerateProjectionError` if any `w` is zero (machine epsilon is
exact zero in this exact-arithmetic embedding). -/
def toCartesian_spec {n : ℕ} (points : Matrix (Fin 3) (Fin n) F) :
    Except ProjErr (Matrix (Fin 2) (Fin n) F) :=
  if ∀ j, points 2 j ≠ 0 then .ok (hom_to_cart points) else .error .degenerateProjection

/-- C8 counterexample: on a point with `w = 0` the spec demands
`DegenerateProjectionError`, but the code's `hom_to_cart` raises nothing: it
returns an (unconditionally divided) value — the junk value 0 here, non-finite
inf in numpy. -/
theorem c8_counterexample :
    toCartesian_spec (!![(1:ℚ); 2; 0]) = .error .degenerateProjection ∧
    hom_to_cart (!![(1:ℚ); 2; 0]) = !![0; 0] := by
  constructor
  · rw [toCartesian_spec, if_neg]
    intro h
    have := h 0
    simp [Matrix.cons_val_zero] at this
  · ext i j
    fin_cases i <;> fin_cases j <;>
      simp [hom_to_cart, Fin.castSucc, Fin.castAdd, Fin.castLE]

/-- C8 (amended): `hom_to_cart` never raises; it divides the first two
coordinates of every point by that point's `w` unconditionally, and whenever
every `w` is nonzero it agrees with the spec's `toCartesian`. -/
theorem c8_hom_to_cart_unconditional {n : ℕ} (points : Matrix (Fin 3) (Fin n) ℚ)
    (hw : ∀ j, points 2 j ≠ 0) :
    toCartesian_spec points = .ok (hom_to_cart points) ∧
    ∀ i j, hom_to_cart points i j = points i.castSucc j / points 2 j := by
  refine ⟨by rw [toCartesian_spec, if_pos hw], fun i j => rfl⟩

/-- Witness for C8's amended theorem at a concrete all-finite input. -/
theorem c8_witness :
    (∀ j, (!![(2:ℚ); 3; 1]) 2 j ≠ 0) ∧
    toCartesian_spec (!![(2:ℚ); 3; 1]) = .ok (hom_to_cart (!![(2:ℚ); 3; 1])) := by
  have hw : ∀ j, (!![(2:ℚ); 3; 1]) 2 j ≠ 0 := by
    intro j
    fin_cases j
    simp
  exact ⟨hw, (c8_hom_to_cart_unconditional _ hw).1⟩

/-! ### Model chessboard generation -/

/-- Embedding of `compute_model_chessboard` (`homography.py`, lines 200–208):
a `rows*cols` array filled row-major with centered unit-spaced grid points
`((col + 0.5) - cols/2, (row + 0.5) - rows/2)`. -/
def compute_model_chessboard (rows cols : ℕ) : List (F × F) :=
  (List.range rows).flatMap fun row : ℕ => (List.range cols).map fun col : ℕ =>
    (((col : F) + 1/2) - (cols : F) / 2, ((row : F) + 1/2) - (rows : F) / 2)

/-- Modelled from the spec: `compute_model_chessboard_2d` is imported from
`homography_utils.py`, which is not under `src/`.  Per the spec (§4.2 and the
data model) it deterministically generates the `rows*cols` grid in row-major
order (left-to-right within each row), scaled by `tile_width`, centered at the
origin when `center_at_zero` is set (the in-source `compute_model_chessboard`
is exactly the centered `tile_width = 1` case) and corner-anchored
otherwise. -/
def compute_model_chessboard_2d (rows cols : ℕ) (tile_width : F) (center_at_zero : Bool) :
    List (F × F) :=
  (List.range rows).flatMap fun row : ℕ => (List.range cols).map fun col : ℕ =>
    if center_at_zero then
      ((((col : F) + 1/2) - (cols : F) / 2) * tile_width,
       (((row : F) + 1/2) - (rows : F) / 2) * tile_width)
    else ((col : F) * tile_width, (row : F) * tile_width)

lemma grid_length {α : Type} (rows cols : ℕ) (g : ℕ → ℕ → α) :
    ((List.range rows).flatMap fun r => (List.range cols).map (g r)).length = rows * cols := by
  induction rows with
  | zero => simp
  | succ n ih => simp [List.range_succ, ih, Nat.succ_mul]

lemma grid_getElem? {α : Type} {rows cols r c : ℕ} (g : ℕ → ℕ → α)
    (hr : r < rows) (hc : c < cols) :
    ((List.range rows).flatMap fun r => (List.range cols).map (g r))[r * cols + c]? =
      some (g r c) := by
  induction rows with
  | zero => omega
  | succ n ih =>
    rw [List.range_succ, List.flatMap_append, List.getElem?_append]
    by_cases h : r < n
    · have hb : r * cols + c < n * cols := by
        have h1 : (r + 1) * cols ≤ n * cols := Nat.mul_le_mul_right cols h
        have h2 : (r + 1) * cols = r * cols + cols := by ring
        omega
      rw [if_pos (by rw [grid_length n cols g]; exact hb)]
      exact ih h
    · have hrn : r = n := by omega
      rw [hrn, if_neg (by rw [grid_length n cols g]; omega), grid_length n cols g,
        Nat.add_sub_cancel_left]
      simp [List.getElem?_map, List.getElem?_range hc]

lemma sum_flatMap_list {α : Type} (l : List α) (f : α → List F) :
    (l.flatMap f).sum = (l.map fun a => (f a).sum).sum := by
  induction l with
  | nil => simp
  | cons a l ih => simp [ih]

lemma range_map_sum (f : ℕ → F) (n : ℕ) :
    ((List.range n).map f).sum = ∑ i in Finset.range n, f i := by
  induction n with
  | zero => simp
  | succ m ih => rw [List.range_succ, List.map_append, List.sum_append,
      Finset.sum_range_succ, ih]; simp

lemma sum_range_add_half (n : ℕ) :
    ∑ c in Finset.range n, ((c : F) + 1/2) = (n : F) ^ 2 / 2 := by
  induction n with
  | zero => simp
  | succ m ih =>
    rw [Finset.sum_range_succ, ih]
    push_cast
    ring

lemma sum_centered_zero (n : ℕ) :
    ∑ c in Finset.range n, (((c : F) + 1/2) - (n : F) / 2) = 0 := by
  rw [Finset.sum_sub_distrib, sum_range_add_half, Finset.sum_const,
    Finset.card_range, nsmul_eq_mul]
  ring

/-- C6: with centering enabled the model chessboard generator returns exactly
`rows * cols` points, laid out row-major (the point at flat index
`r * cols + c` is the `c`-th point of row `r`, with `x` increasing
left-to-right), the sum (hence mean) of all points is exactly `(0, 0)`, and
consecutive points within a row are spaced horizontally by exactly
`tile_width`. -/
theorem c6_model_chessboard (rows cols : ℕ) (tile_width : F)
    (hr : 0 < rows) (hc : 0 < cols) :
    (compute_model_chessboard_2d rows cols tile_width true).length = rows * cols
  ∧ (∀ r c, r < rows → c < cols →
      (compute_model_chessboard_2d rows cols tile_width true)[r * cols + c]? =
        some ((((c : F) + 1/2) - (cols : F) / 2) * tile_width,
              (((r : F) + 1/2) - (rows : F) / 2) * tile_width))
  ∧ ((compute_model_chessboard_2d rows cols tile_width true).map Prod.fst).sum = 0
  ∧ ((compute_model_chessboard_2d rows cols tile_width true).map Prod.snd).sum = 0
  ∧ (∀ r c p q, r < rows → c + 1 < cols →
      (compute_model_chessboard_2d rows cols tile_width true)[r * cols + (c+1)]? = some p →
      (compute_model_chessboard_2d rows cols tile_width true)[r * cols + c]? = some q →
      p.1 - q.1 = tile_width) := by
  have hgrid : compute_model_chessboard_2d rows cols tile_width true =
      (List.range rows).flatMap fun row : ℕ =>
        (List.range cols).map fun col : ℕ =>
          ((((col : F) + 1/2) - (cols : F) / 2) * tile_width,
           (((row : F) + 1/2) - (rows : F) / 2) * tile_width) := by
    simp only [compute_model_chessboard_2d, if_true]
  refine ⟨?_, ?_, ?_, ?_, ?_⟩
  · rw [hgrid]; exact grid_length rows cols _
  · intro r c hr' hc'
    rw [hgrid]
    exact grid_getElem? _ hr' hc'
  · rw [hgrid, List.map_flatMap, sum_flatMap_list]
    simp only [List.map_map]
    rw [range_map_sum]
    refine Finset.sum_eq_zero fun r _ => ?_
    rw [range_map_sum]
    simp only [Function.comp]
    rw [← Finset.sum_mul, sum_centered_zero, zero_mul]
  · rw [hgrid, List.map_flatMap, sum_flatMap_list]
    simp only [List.map_map]
    rw [range_map_sum]
    have hconst : ∀ r ∈ Finset.range rows,
        (((List.range cols).map (Prod.snd ∘ fun col : ℕ =>
          ((((col : F) + 1/2) - (cols : F) / 2) * tile_width,
           (((r : F) + 1/2) - (rows : F) / 2) * tile_width))).sum) =
        (((r : F) + 1/2) - (rows : F) / 2) * ((cols : F) * tile_width) := by
      intro r _
      rw [range_map_sum]
      simp only [Function.comp]
      rw [Finset.sum_const, Finset.card_range, nsmul_eq_mul]
      ring
    rw [Finset.sum_congr rfl hconst, ← Finset.sum_mul, sum_centered_zero, zero_mul]
  · intro r c p q hr' hc' hp hq
    rw [hgrid] at hp hq
    rw [grid_getElem? _ hr' hc'] at hp
    rw [grid_getElem? _ hr' (by omega : c < cols)] at hq
    cases hp; cases hq
    push_cast
    ring

/-- Witness for C6 at the spec's example `rows = 6, cols = 8, tileWidth = 30`
(48 points). -/
theorem c6_witness :
    (0 < 6 ∧ 0 < 8) ∧
    ((compute_model_chessboard_2d 6 8 (30 : ℚ) true).length = 6 * 8
  ∧ (∀ r c : ℕ, r < 6 → c < 8 →
      (compute_model_chessboard_2d 6 8 (30 : ℚ) true)[r * 8 + c]? =
        some ((((c : ℚ) + 1/2) - (8 : ℚ) / 2) * 30,
              (((r : ℚ) + 1/2) - (6 : ℚ) / 2) * 30))
  ∧ ((compute_model_chessboard_2d 6 8 (30 : ℚ) true).map Prod.fst).sum = 0
  ∧ ((compute_model_chessboard_2d 6 8 (30 : ℚ) true).map Prod.snd).sum = 0
  ∧ (∀ (r c : ℕ) (p q : ℚ × ℚ), r < 6 → c + 1 < 8 →
      (compute_model_chessboard_2d 6 8 (30 : ℚ) true)[r * 8 + (c+1)]? = some p →
      (compute_model_chessboard_2d 6 8 (30 : ℚ) true)[r * 8 + c]? = some q →
      p.1 - q.1 = 30)) :=
  ⟨⟨by decide, by decide⟩, c6_model_chessboard 6 8 30 (by decide) (by decide)⟩

/-! ### Chessboard tile width estimation (`homography_from_chessboard.py`) -/

/-- Euclidean distance `np.linalg.norm (p - q)` between two corners, with the
square root passed in as the numpy collaborator `sq`. -/
def dist2 (sq : F → F) (p q : F × F) : F := sq ((p.1 - q.1) ^ 2 + (p.2 - q.2) ^ 2)

/-- Distances between consecutive points of a row (`for i in range(len(row)-1)`). -/
def consecDists (sq : F → F) (row : List (F × F)) : List F :=
  (row.zip row.tail).map fun pq => dist2 sq pq.1 pq.2

/-- Row grouping used by `chessboard_tile_width` (`homography_from_chessboard.py`,
lines 65–70): sort all corners by their `y` coordinate, then split the sorted
list into consecutive groups of `cb_cols` (`len(sorted_corners) // interval`
full groups; any remainder is dropped, exactly as the Python slice loop does). -/
def tileRows (cb_cols : ℕ) (corners : List (F × F)) : List (List (F × F)) :=
  let sorted_corners := List.insertionSort (fun a b : F × F => a.2 ≤ b.2) corners
  (List.range (sorted_corners.length / cb_cols)).map fun i =>
    (sorted_corners.drop (i * cb_cols)).take cb_cols

/-- Embedding of `chessboard_tile_width` (`homography_from_chessboard.py`,
lines 63–80): group corners into rows, sort each row by `x`, and keep a
running maximum (initialised to 0) of the distances between consecutive
corners of each row. -/
def chessboard_tile_width (sq : F → F) (cb_cols : ℕ) (corners : List (F × F)) : F :=
  (tileRows cb_cols corners).foldl (fun cb_tile_width row =>
    (consecDists sq (List.insertionSort (fun a b : F × F => a.1 ≤ b.1) row)).foldl
      max cb_tile_width) 0

lemma foldl_max_flatMap {α : Type} (d : α → List F) :
    ∀ (rows : List α) (a : F),
      rows.foldl (fun acc row => (d row).foldl max acc) a = (rows.flatMap d).foldl max a := by
  intro rows
  induction rows with
  | nil => intro a; rfl
  | cons r rs ih =>
    intro a
    rw [List.flatMap_cons, List.foldl_append, List.foldl_cons]
    exact ih _

lemma le_foldl_max : ∀ (l : List F) (a : F), a ≤ l.foldl max a := by
  intro l
  induction l with
  | nil => intro a; exact le_refl a
  | cons x l ih =>
    intro a
    exact le_trans (le_max_left a x) (ih (max a x))

lemma mem_le_foldl_max : ∀ (l : List F) (a : F), ∀ x ∈ l, x ≤ l.foldl max a := by
  intro l
  induction l with
  | nil => intro a x hx; cases hx
  | cons y l ih =>
    intro a x hx
    rcases List.mem_cons.mp hx with h | h
    · subst h
      exact le_trans (le_max_right a x) (le_foldl_max l (max a x))
    · exact ih (max a y) x h

lemma foldl_max_mem : ∀ (l : List F) (a : F), l.foldl max a ∈ l ∨ l.foldl max a = a := by
  intro l
  induction l with
  | nil => intro a; exact Or.inr rfl
  | cons x l ih =>
    intro a
    rcases ih (max a x) with h | h
    · exact Or.inl (List.mem_cons_of_mem x h)
    · rcases max_choice a x with h' | h'
      · exact Or.inr (by rw [List.foldl_cons, h, h'])
      · exact Or.inl (by rw [List.foldl_cons, h, h']; exact List.mem_cons_self x l)

/-- C9: the estimated tile width is exactly the maximum (not an average) of
the Euclidean distances between consecutive corners within a row, rows being
formed by sorting on the vertical coordinate, grouping into groups of
`cb_cols` and sorting each group horizontally: the result equals the fold-max
of all such distances, bounds every one of them from above, and is itself one
of them (or 0 when there are none). -/
theorem c9_tile_width_is_max (sq : ℚ → ℚ) (cb_cols : ℕ) (corners : List (ℚ × ℚ)) :
    chessboard_tile_width sq cb_cols corners =
      ((tileRows cb_cols corners).flatMap fun row =>
        consecDists sq (List.insertionSort (fun a b : ℚ × ℚ => a.1 ≤ b.1) row)).foldl max 0
  ∧ (∀ x ∈ (tileRows cb_cols corners).flatMap fun row =>
        consecDists sq (List.insertionSort (fun a b : ℚ × ℚ => a.1 ≤ b.1) row),
      x ≤ chessboard_tile_width sq cb_cols corners)
  ∧ (chessboard_tile_width sq cb_cols corners ∈
      ((tileRows cb_cols corners).flatMap fun row =>
        consecDists sq (List.insertionSort (fun a b : ℚ × ℚ => a.1 ≤ b.1) row))
     ∨ chessboard_tile_width sq cb_cols corners = 0) := by
  have hfold : chessboard_tile_width sq cb_cols corners =
      ((tileRows cb_cols corners).flatMap fun row =>
        consecDists sq (List.insertionSort (fun a b : ℚ × ℚ => a.1 ≤ b.1) row)).foldl max 0 :=
    foldl_max_flatMap _ (tileRows cb_cols corners) 0
  refine ⟨hfold, ?_, ?_⟩
  · intro x hx
    rw [hfold]
    exact mem_le_foldl_max _ 0 x hx
  · rw [hfold]
    exact foldl_max_mem _ 0

/-! ### Plane-induced homography synthesis and motion propagation -/

/-- Determinant of a 3×3 matrix, written out (`np.linalg.det`). -/
def mat3_det (M : Mat3 F) : F :=
  M 0 0 * M 1 1 * M 2 2 - M 0 0 * M 1 2 * M 2 1 - M 0 1 * M 1 0 * M 2 2 +
    M 0 1 * M 1 2 * M 2 0 + M 0 2 * M 1 0 * M 2 1 - M 0 2 * M 1 1 * M 2 0

/-- Inverse of a 3×3 matrix (`np.linalg.inv`), via the cofactor formula. -/
def mat3_inv (M : Mat3 F) : Mat3 F :=
  (mat3_det M)⁻¹ •
    !![M 1 1 * M 2 2 - M 1 2 * M 2 1, -(M 0 1 * M 2 2) + M 0 2 * M 2 1,
         M 0 1 * M 1 2 - M 0 2 * M 1 1;
       -(M 1 0 * M 2 2) + M 1 2 * M 2 0, M 0 0 * M 2 2 - M 0 2 * M 2 0,
         -(M 0 0 * M 1 2) + M 0 2 * M 1 0;
       M 1 0 * M 2 1 - M 1 1 * M 2 0, -(M 0 0 * M 2 1) + M 0 1 * M 2 0,
         M 0 0 * M 1 1 - M 0 1 * M 1 0]

lemma mat3_det_eq (M : Mat3 F) : mat3_det M = M.det := (Matrix.det_fin_three M).symm

lemma mat3_inv_eq (M : Mat3 F) : mat3_inv M = M⁻¹ := by
  rw [Matrix.inv_def, Ring.inverse_eq_inv, Matrix.adjugate_fin_three, mat3_inv, mat3_det_eq]

lemma mul_mat3_inv (M : Mat3 F) (h : M.det ≠ 0) : M * mat3_inv M = 1 := by
  rw [mat3_inv_eq]
  exact Matrix.mul_nonsing_inv M (isUnit_iff_ne_zero.mpr h)

/-- The static odometry-to-camera lever arm of `vicreg_dataset.py`, line 27:
`np.array([0.2286, 0, 0.5715])`. -/
def camera_offset : Vec3 F := ![2286 / 10000, 0, 5715 / 10000]

/-- Error raised by the spec's homography synthesis/decomposition on a
degenerate plane (spec §4.2 / §7): `DecompositionError`. -/
inductive DecompErr where
  | decompositionError
deriving DecidableEq

/-- Value of the spec §4.2 plane-induced-homography formula
`K * (R_rel - (T_rel * normalᵀ) / distance) * K⁻¹`, total in the field
embedding (at `distance = 0` it is a junk value never returned by
`compute_homography_from_rt`, which errors there instead). -/
def homography_from_rt_formula (K R_rel : Mat3 F) (T_rel plane_normal : Vec3 F)
    (plane_distance : F) : Mat3 F :=
  K * (R_rel - plane_distance⁻¹ • Matrix.vecMulVec T_rel plane_normal) * mat3_inv K

/-- Modelled from the spec: `compute_homography_from_rt` is imported from
`homography_utils.py`, which is not under `src/`.  Per spec §4.2
(`synthesizeHomography`) it builds the homography induced by a relative rigid
motion of a plane with known normal and distance,
`H = K * (R_rel - (T_rel * normalᵀ) / distance) * K⁻¹`, and fails with
`DecompositionError` if the plane distance is zero. -/
def compute_homography_from_rt (K R_rel : Mat3 F) (T_rel plane_normal : Vec3 F)
    (plane_distance : F) : Except DecompErr (Mat3 F) :=
  if plane_distance = 0 then .error .decompositionError
  else .ok (homography_from_rt_formula K R_rel T_rel plane_normal plane_distance)

/-- Embedding of spec §4.4's `propagate`; its body in the source is inlined in
`ComputeVicRegData` (`vicreg_dataset.py`, lines 26–29 and 50–58): add the
static camera offset to both translations, form the relative rotation
`R_rel = R_curᵀ R_past` and translation `T_rel = R_curᵀ (T_past - T_cur)`,
synthesize the relative homography and left-compose the calibrated `H`.  A
`DecompositionError` from the synthesis propagates to the caller (spec §7). -/
def propagate (H K : Mat3 F) (rt_ref rt_other : Mat4 F) (plane_normal : Vec3 F)
    (plane_distance : F) : Except DecompErr (Mat3 F) :=
  let R_cur := Rpart rt_ref
  let T_cur := Tpart rt_ref + camera_offset
  let R_past := Rpart rt_other
  let T_past := Tpart rt_other + camera_offset
  let R_rel := R_curᵀ * R_past
  let T_rel := R_curᵀ *ᵥ (T_past - T_cur)
  match compute_homography_from_rt K R_rel T_rel plane_normal plane_distance with
  | .error e => .error e
  | .ok H_rel => .ok (H * H_rel)

/-- C1 counterexample: the claim quantifies over every plane distance, but at
plane distance 0 the spec's own synthesis fails with `DecompositionError`
(and the numpy formula divides 0 by 0), so propagating a pose to itself does
not return the calibrated homography there. -/
theorem c1_counterexample :
    propagate (!![(1:ℚ), 2, 3; 0, 1, 4; 0, 0, 1]) 1 1 1 ![0, 0, 1] 0 =
      .error .decompositionError
  ∧ (Except.error DecompErr.decompositionError ≠
      (.ok (!![(1:ℚ), 2, 3; 0, 1, 4; 0, 0, 1]) : Except DecompErr (Mat3 ℚ))) := by
  constructor
  · rw [propagate, compute_homography_from_rt, if_pos rfl]
  · intro h
    cases h

/-- C1 (amended): for every nonzero plane distance, propagating from a pose to
itself returns exactly the calibrated homography — with `rt_other = rt_ref`
the relative translation vanishes identically and the relative rotation is
`RᵀR = 1` for the (orthonormal) rotation block of a rigid transform, so the
synthesized relative homography collapses to `K K⁻¹ = 1` and the result is
exactly `H`.  At plane distance zero the synthesis instead fails with
`DecompositionError` (see the counterexample). -/
theorem c1_identity_propagation (H K : Mat3 F) (RT : Mat4 F) (plane_normal : Vec3 F)
    (plane_distance : F) (hR : (Rpart RT)ᵀ * Rpart RT = 1) (hK : K.det ≠ 0)
    (hd : plane_distance ≠ 0) :
    propagate H K RT RT plane_normal plane_distance = .ok H := by
  have hT : Tpart RT + camera_offset - (Tpart RT + camera_offset) = (0 : Vec3 F) :=
    sub_self _
  simp only [propagate, compute_homography_from_rt, homography_from_rt_formula, hT,
    Matrix.mulVec_zero, if_neg hd]
  have hv : Matrix.vecMulVec (0 : Vec3 F) plane_normal = (0 : Mat3 F) := by
    ext i j
    simp [Matrix.vecMulVec_apply]
  rw [hv, smul_zero, sub_zero, hR, mul_one, mul_mat3_inv K hK, mul_one]

lemma Rpart_one : Rpart (1 : Mat4 F) = 1 := by
  ext i j
  simp [Rpart, Matrix.one_apply, Fin.castSucc_inj]

/-- Witness for C1's amended theorem at a concrete calibrated homography, the
identity pose and unit plane distance. -/
theorem c1_witness :
    ((Rpart (1 : Mat4 ℚ))ᵀ * Rpart (1 : Mat4 ℚ) = 1 ∧ (1 : Mat3 ℚ).det ≠ 0 ∧
      (1 : ℚ) ≠ 0) ∧
    propagate (!![(1:ℚ), 2, 3; 0, 1, 4; 0, 0, 1]) 1 1 1 ![0, 0, 1] 1 =
      .ok (!![(1:ℚ), 2, 3; 0, 1, 4; 0, 0, 1]) := by
  have hR : (Rpart (1 : Mat4 ℚ))ᵀ * Rpart (1 : Mat4 ℚ) = 1 := by
    rw [Rpart_one, Matrix.transpose_one, mul_one]
  have hK : (1 : Mat3 ℚ).det ≠ 0 := by
    rw [Matrix.det_one]
    exact one_ne_zero
  exact ⟨⟨hR, hK, one_ne_zero⟩,
    c1_identity_propagation (!![(1:ℚ), 2, 3; 0, 1, 4; 0, 0, 1]) 1 1 ![0, 0, 1] 1 hR hK
      one_ne_zero⟩

/-! ### Homography decomposition (`homography.py`, `decompose_homography_return_rt`) -/

/-- Row `k` of `np.transpose(H)`, i.e. column `k` of `H` (`h1`, `h2`, `h3` in
lines 220–223). -/
def h_col (H : Mat3 F) (k : Fin 3) : Vec3 F := fun j => Hᵀ k j

/-- Argument of the norm in line 225: the squared length of `K⁻¹ h1`
(`np.linalg.norm x` is `sqrt (sumSq x)`). -/
def normArg (H K_inv : Mat3 F) : F := sumSq (K_inv *ᵥ h_col H 0)

/-- Scale factor `L = 1 / np.linalg.norm(np.dot(K_inv, h1))` (line 225), with
the square root passed in as the numpy collaborator `sq`. -/
def scaleL (sq : F → F) (H K_inv : Mat3 F) : F := 1 / sq (normArg H K_inv)

/-- Rotation assembled in lines 227–234: rows `r1 = L·K⁻¹h1`, `r2 = L·K⁻¹h2`,
`r3 = r1 × r2`. -/
def assembleR (sq : F → F) (H K_inv : Mat3 F) : Mat3 F :=
  let L := scaleL sq H K_inv
  let r1 := L • (K_inv *ᵥ h_col H 0)
  let r2 := L • (K_inv *ᵥ h_col H 1)
  let r3 := cross r1 r2
  Matrix.of ![r1, r2, r3]

/-- Translation `T = L * np.dot(K_inv, h3)` (line 231). -/
def decomposeT (sq : F → F) (H K_inv : Mat3 F) : Vec3 F :=
  scaleL sq H K_inv • (K_inv *ᵥ h_col H 2)

/-- Embedding of `decompose_homography_return_rt` (`homography.py`, lines
219–244).  `np.linalg.svd` is an external LAPACK collaborator, passed as the
function `svd` returning `(U, S, V)` with, per its contract,
`U * diagonal S * V` equal to the input (numpy's third return value is
already `Vᵀ`); the code replaces the assembled rotation by `U * V` and packs
`M = np.eye(4)` with `M[:3,:3] = R`, `M[:3,3] = T`. -/
def decompose_homography_return_rt (sq : F → F)
    (svd : Mat3 F → Mat3 F × Vec3 F × Mat3 F) (H K_inv : Mat3 F) : Mat4 F :=
  let R0 := assembleR sq H K_inv
  let USV := svd R0
  let R := USV.1 * USV.2.2
  let T := decomposeT sq H K_inv
  Matrix.of fun i j =>
    if hi : (i : ℕ) < 3 then
      if hj : (j : ℕ) < 3 then R ⟨i, hi⟩ ⟨j, hj⟩ else T ⟨i, hi⟩
    else if (j : ℕ) = 3 then 1 else 0

lemma cross_smul_smul (L : F) (a b : Vec3 F) :
    cross (L • a) (L • b) = (L * L) • cross a b := by
  funext i
  fin_cases i <;> simp [cross] <;> ring

lemma sumSq_smul (c : F) (v : Vec3 F) : sumSq (c • v) = c ^ 2 * sumSq v := by
  simp [sumSq, dot3]
  ring

lemma sumSq_pos (v : Vec3 F) (hv : v ≠ 0) : 0 < sumSq v := by
  have h : v 0 ≠ 0 ∨ v 1 ≠ 0 ∨ v 2 ≠ 0 := by
    by_contra hcon
    push_neg at hcon
    exact hv (funext fun i => by fin_cases i <;> simp [hcon.1, hcon.2.1, hcon.2.2])
  have h0 := mul_self_nonneg (v 0)
  have h1 := mul_self_nonneg (v 1)
  have h2 := mul_self_nonneg (v 2)
  rcases h with h | h | h <;>
    · have := mul_self_pos.mpr h
      unfold sumSq dot3
      linarith

lemma det_rows_cross (r1 r2 : Vec3 F) :
    (Matrix.of ![r1, r2, cross r1 r2]).det = sumSq (cross r1 r2) := by
  rw [Matrix.det_fin_three]
  simp [cross, sumSq, dot3]
  ring

lemma triple_product_det (M : Mat3 F) :
    dot3 (cross (fun i => M i 0) (fun i => M i 1)) (fun i => M i 2) = M.det := by
  rw [Matrix.det_fin_three]
  simp [cross, dot3]
  ring

lemma cross_cols_ne_zero (M : Mat3 F) (h : M.det ≠ 0) :
    cross (fun i => M i 0) (fun i => M i 1) ≠ 0 := by
  intro hc
  apply h
  rw [← triple_product_det, hc]
  simp [dot3]

lemma mulVec_hcol (K_inv H : Mat3 F) (k : Fin 3) :
    K_inv *ᵥ h_col H k = fun i => (K_inv * H) i k := by
  funext i
  simp [h_col, Matrix.mulVec, Matrix.mul_apply, Matrix.dotProduct, Matrix.transpose_apply]

lemma det_assembleR_pos (sq : F → F) (H K_inv : Mat3 F)
    (hH : H.det ≠ 0) (hK : K_inv.det ≠ 0) (hsq : sq (normArg H K_inv) ≠ 0) :
    0 < (assembleR sq H K_inv).det := by
  have hL : scaleL sq H K_inv ≠ 0 := by
    rw [scaleL]
    exact div_ne_zero one_ne_zero hsq
  have hKH : (K_inv * H).det ≠ 0 := by
    rw [Matrix.det_mul]
    exact mul_ne_zero hK hH
  have hab : cross (K_inv *ᵥ h_col H 0) (K_inv *ᵥ h_col H 1) ≠ 0 := by
    rw [mulVec_hcol, mulVec_hcol]
    exact cross_cols_ne_zero (K_inv * H) hKH
  have hR0 : (assembleR sq H K_inv).det =
      sumSq (cross (scaleL sq H K_inv • (K_inv *ᵥ h_col H 0))
        (scaleL sq H K_inv • (K_inv *ᵥ h_col H 1))) := det_rows_cross _ _
  rw [hR0, cross_smul_smul, sumSq_smul]
  have hL2 : 0 < (scaleL sq H K_inv * scaleL sq H K_inv) ^ 2 :=
    pow_pos (mul_self_pos.mpr hL) 2
  have hcr : 0 < sumSq (cross (K_inv *ᵥ h_col H 0) (K_inv *ᵥ h_col H 1)) :=
    sumSq_pos _ hab
  exact mul_pos hL2 hcr

lemma det_mul_self_one {M : Mat3 F} (h : Mᵀ * M = 1) : M.det * M.det = 1 := by
  have := congrArg Matrix.det h
  rwa [Matrix.det_mul, Matrix.det_transpose, Matrix.det_one] at this

/-- C5: the 4×4 transform returned by `decompose_homography_return_rt` is a
proper rigid transform for every invertible homography and invertible
intrinsics: given the contract of the SVD collaborator (orthogonal factors,
nonnegative singular values, factorization of the assembled rotation) and a
nonzero value of the norm's square root, the upper-left 3×3 block `R = U·V`
satisfies `Rᵀ·R = 1` and `det R = +1` (a rotation, not a reflection), and the
bottom row is `(0, 0, 0, 1)`. -/
theorem c5_decompose_proper_rigid (sq : F → F)
    (svd : Mat3 F → Mat3 F × Vec3 F × Mat3 F) (H K_inv : Mat3 F)
    (U : Mat3 F) (S : Vec3 F) (V : Mat3 F)
    (hsvd : svd (assembleR sq H K_inv) = (U, S, V))
    (hH : H.det ≠ 0) (hK : K_inv.det ≠ 0) (hsq : sq (normArg H K_inv) ≠ 0)
    (hU : Uᵀ * U = 1) (hV : Vᵀ * V = 1) (hS : ∀ i, 0 ≤ S i)
    (hUSV : U * Matrix.diagonal S * V = assembleR sq H K_inv) :
    (Rpart (decompose_homography_return_rt sq svd H K_inv))ᵀ *
      Rpart (decompose_homography_return_rt sq svd H K_inv) = 1
  ∧ (Rpart (decompose_homography_return_rt sq svd H K_inv)).det = 1
  ∧ (∀ j : Fin 4, decompose_homography_return_rt sq svd H K_inv 3 j =
      if j = 3 then 1 else 0) := by
  have hRpart : Rpart (decompose_homography_return_rt sq svd H K_inv) = U * V := by
    ext i j
    simp only [Rpart, decompose_homography_return_rt, Matrix.of_apply, hsvd]
    rw [dif_pos (by simp [Fin.is_lt] : ((i.castSucc : Fin 4) : ℕ) < 3),
      dif_pos (by simp [Fin.is_lt] : ((j.castSucc : Fin 4) : ℕ) < 3)]
    congr 1 <;> exact Fin.ext (by simp)
  have horth : (U * V)ᵀ * (U * V) = 1 := by
    rw [Matrix.transpose_mul, mul_assoc, ← mul_assoc Uᵀ U V, hU, one_mul, hV]
  have hdet : (U * V).det = 1 := by
    have hpos : 0 < (assembleR sq H K_inv).det := det_assembleR_pos sq H K_inv hH hK hsq
    have hfac : U.det * (∏ i, S i) * V.det = (assembleR sq H K_inv).det := by
      rw [← hUSV, Matrix.det_mul, Matrix.det_mul, Matrix.det_diagonal]
    have hprod : 0 ≤ ∏ i, S i := Finset.prod_nonneg fun i _ => hS i
    have huv2 : U.det * V.det * (U.det * V.det) = 1 := by
      have h1 := det_mul_self_one hU
      have h2 := det_mul_self_one hV
      calc U.det * V.det * (U.det * V.det) = (U.det * U.det) * (V.det * V.det) := by ring
        _ = 1 := by rw [h1, h2, one_mul]
    rcases mul_self_eq_one_iff.mp huv2 with h | h
    · rw [Matrix.det_mul]
      exact h
    · exfalso
      have : (assembleR sq H K_inv).det = -(∏ i, S i) := by
        rw [← hfac]
        have : U.det * (∏ i, S i) * V.det = U.det * V.det * (∏ i, S i) := by ring
        rw [this, h]
        ring
      linarith [hpos, this ▸ hpos]
  refine ⟨by rw [hRpart]; exact horth, by rw [hRpart]; exact hdet, ?_⟩
  intro j
  simp only [decompose_homography_return_rt, Matrix.of_apply]
  rw [dif_neg (by decide : ¬(((3 : Fin 4) : ℕ) < 3))]
  have h34 : ((3 : Fin 4) : ℕ) = 3 := by decide
  by_cases hj : j = 3
  · rw [if_pos (by rw [hj, h34]), if_pos hj]
  · have hjv : ¬((j : ℕ) = 3) := fun h => hj (Fin.ext (by rw [h, h34]))
    rw [if_neg hjv, if_neg hj]

/-- Trivial square-root collaborator used by the C5 witness (correct at 1). -/
def sqOne : ℚ → ℚ := fun _ => 1

/-- Trivial SVD collaborator used by the C5 witness (correct on orthogonal
inputs). -/
def svdOne : Mat3 ℚ → Mat3 ℚ × Vec3 ℚ × Mat3 ℚ := fun M => (1, ![1, 1, 1], M)

lemma assembleR_id : assembleR sqOne (1 : Mat3 ℚ) 1 = 1 := by
  ext i j
  fin_cases i <;> fin_cases j <;>
    simp [assembleR, scaleL, normArg, h_col, sumSq, dot3, cross, sqOne,
      Matrix.one_mulVec, Matrix.transpose_one, Matrix.one_apply,
      Matrix.vecHead, Matrix.vecTail, Function.comp] <;>
    norm_num

lemma diagonal_ones : Matrix.diagonal (![1, 1, 1] : Vec3 ℚ) = 1 := by
  ext i j
  fin_cases i <;> fin_cases j <;> simp [Matrix.diagonal, Matrix.one_apply]

/-- Witness for C5 at the identity homography and identity intrinsics, with
the collaborator contracts discharged concretely. -/
theorem c5_witness :
    (svdOne (assembleR sqOne (1 : Mat3 ℚ) 1) = (1, ![1, 1, 1], 1)
      ∧ (1 : Mat3 ℚ).det ≠ 0
      ∧ sqOne (normArg (1 : Mat3 ℚ) 1) ≠ 0
      ∧ (1 : Mat3 ℚ)ᵀ * 1 = 1
      ∧ (∀ i, 0 ≤ (![1, 1, 1] : Vec3 ℚ) i)
      ∧ (1 : Mat3 ℚ) * Matrix.diagonal (![1, 1, 1] : Vec3 ℚ) * 1 =
          assembleR sqOne (1 : Mat3 ℚ) 1) ∧
    ((Rpart (decompose_homography_return_rt sqOne svdOne (1 : Mat3 ℚ) 1))ᵀ *
      Rpart (decompose_homography_return_rt sqOne svdOne (1 : Mat3 ℚ) 1) = 1
    ∧ (Rpart (decompose_homography_return_rt sqOne svdOne (1 : Mat3 ℚ) 1)).det = 1
    ∧ (∀ j : Fin 4, decompose_homography_return_rt sqOne svdOne (1 : Mat3 ℚ) 1 3 j =
        if j = 3 then 1 else 0)) := by
  have hsvd : svdOne (assembleR sqOne (1 : Mat3 ℚ) 1) = (1, ![1, 1, 1], 1) := by
    rw [svdOne, assembleR_id]
  have hdet : (1 : Mat3 ℚ).det ≠ 0 := by
    rw [Matrix.det_one]
    exact one_ne_zero
  have hsq : sqOne (normArg (1 : Mat3 ℚ) 1) ≠ 0 := one_ne_zero
  have hUU : (1 : Mat3 ℚ)ᵀ * 1 = 1 := by rw [Matrix.transpose_one, mul_one]
  have hS : ∀ i, 0 ≤ (![1, 1, 1] : Vec3 ℚ) i := by
    intro i
    fin_cases i <;> norm_num
  have hUSV : (1 : Mat3 ℚ) * Matrix.diagonal (![1, 1, 1] : Vec3 ℚ) * 1 =
      assembleR sqOne (1 : Mat3 ℚ) 1 := by
    rw [diagonal_ones, assembleR_id, mul_one, mul_one]
  exact ⟨⟨hsvd, hdet, hsq, hUU, hS, hUSV⟩,
    c5_decompose_proper_rigid sqOne svdOne 1 1 1 ![1, 1, 1] 1 hsvd hdet hdet hsq hUU hUU
      hS hUSV⟩

/-! ### The VICReg temporal patch sampler (`vicreg_dataset.py`, `ComputeVicRegData`)

Images are an abstract type `Img`; the OpenCV collaborators
(`cv2.warpPerspective`, `cv2.resize`, `.shape`) are bundled in `CV`.  The
odometry store of the robot data source is threaded explicitly as a
`List (Mat4 F)` because the source's `T_cur += camera_offset` /
`T_past += camera_offset` operate in place on the numpy slice view
`rt[:3, 3]` of the array returned by `getOdomAtTimestep`
(`robot_data_at_timestep.py` is not under `src/`; per the spec the data
source is an indexed sequence of poses, and indexing a stored numpy array
aliases it, so the in-place `+=` writes through to the store). -/

/-- OpenCV collaborators used by the sampler. -/
structure CV (F : Type) (Img : Type) where
  warpPerspective : Img → Mat3 F → ℕ × ℕ → Img
  resize : Img → ℕ × ℕ → Img
  shape : Img → List ℕ

/-- Effect of `rt[:3, 3] += camera_offset` on the stored 4×4 pose array. -/
def addCamOffset (M : Mat4 F) : Mat4 F :=
  Matrix.of fun i j =>
    if h : (i : ℕ) < 3 ∧ (j : ℕ) = 3 then M i j + camera_offset ⟨i, h.1⟩ else M i j

/-- Warp to `patch_size` followed by the source's shape check
(`if cur_patch.shape != patch_size: cur_patch = cv2.resize(...)`). -/
def warpResize {Img : Type} (cv : CV F Img) (img : Img) (M : Mat3 F)
    (patch_size : ℕ × ℕ) : Img :=
  let patch := cv.warpPerspective img M patch_size
  if cv.shape patch ≠ [patch_size.1, patch_size.2] then cv.resize patch patch_size else patch

/-- Pointwise `cv2.perspectiveTransform`: apply the homography to each point
and divide by the homogeneous coordinate. -/
def perspectiveTransform (pts : List (F × F)) (M : Mat3 F) : List (F × F) :=
  pts.map fun p =>
    let w := M 2 0 * p.1 + M 2 1 * p.2 + M 2 2
    ((M 0 0 * p.1 + M 0 1 * p.2 + M 0 2) / w,
     (M 1 0 * p.1 + M 1 1 * p.2 + M 1 2) / w)

/-- The past patch's own corner rectangle (`vicreg_dataset.py`, lines 61–66). -/
def past_bbox_corners (patch_size : ℕ × ℕ) : List (F × F) :=
  [(0, 0), ((patch_size.1 : F), 0), ((patch_size.1 : F), (patch_size.2 : F)),
   (0, (patch_size.2 : F))]

/-- Axis-aligned integer bounding box of a point list
(`int(np.min(...))` / `int(np.max(...))`, lines 69–73). -/
def bboxOfPoints [FloorRing F] (pts : List (F × F)) : BBox ℤ :=
  ⟨pyInt (npMinL (pts.map Prod.fst)), pyInt (npMinL (pts.map Prod.snd)),
   pyInt (npMaxL (pts.map Prod.fst)), pyInt (npMaxL (pts.map Prod.snd))⟩

/-- Inner history loop of `ComputeVicRegData` (lines 42–81), threading the
odometry store and recording one entry per offset: `none` for a skipped
offset (negative timestep `continue`, or failed overlap test), `some patch`
for an emitted patch — `timestep_patches` receives exactly the `some`s in
order.  The homography is `compute_homography_from_rt`'s non-error value
(`homography_from_rt_formula`); on a zero plane distance the real call
raises `DecompositionError` and aborts the whole run, a path analyzed at
`propagate`, while the loop's store threading and patch counting do not
depend on the homography values. -/
def vicPastLoop [FloorRing F] {Img : Type} (cv : CV F Img) (H K : Mat3 F)
    (plane_normal : Vec3 F) (plane_distance : F) (patch_size : ℕ × ℕ)
    (images : ℕ → Img) (t : ℕ) (R_cur : Mat3 F) (T_cur : Vec3 F) :
    List ℕ → List (Mat4 F) → List (Mat4 F) × List (Option Img)
  | [], odom => (odom, [])
  | past_hist :: rest, odom =>
    if t < past_hist then
      let r := vicPastLoop cv H K plane_normal plane_distance patch_size images t
        R_cur T_cur rest odom
      (r.1, none :: r.2)
    else
      let past_timestep := t - past_hist
      let past_image := images past_timestep
      let past_rt := odom.getD past_timestep 1
      let odom' := odom.set past_timestep (addCamOffset past_rt)
      let R_past := Rpart past_rt
      let T_past := Tpart past_rt + camera_offset
      let R_rel := R_curᵀ * R_past
      let T_rel := R_curᵀ *ᵥ (T_past - T_cur)
      let H_past2cur := homography_from_rt_formula K R_rel T_rel plane_normal plane_distance
      let H_past2patch := H * H_past2cur
      let past_bbox := bboxOfPoints
        (perspectiveTransform (past_bbox_corners patch_size) H_past2cur)
      let cur_bbox : BBox ℤ := ⟨0, 0, (patch_size.1 : ℤ), (patch_size.2 : ℤ)⟩
      let opt := if does_overlap cur_bbox past_bbox then
          some (warpResize cv past_image H_past2patch patch_size)
        else none
      let r := vicPastLoop cv H K plane_normal plane_distance patch_size images t
        R_cur T_cur rest odom'
      (r.1, opt :: r.2)

/-- One timestep of `ComputeVicRegData` up to the option list: read the
current pose (mutating its translation in place), then run the history
loop over offsets `1 .. history_size-1`. -/
def vicTimestepOpts [FloorRing F] {Img : Type} (cv : CV F Img) (H K : Mat3 F)
    (plane_normal : Vec3 F) (plane_distance : F) (patch_size : ℕ × ℕ)
    (images : ℕ → Img) (history_size : ℕ) (odom : List (Mat4 F)) (t : ℕ) :
    List (Mat4 F) × List (Option Img) :=
  let cur_rt := odom.getD t 1
  let odom1 := odom.set t (addCamOffset cur_rt)
  let R_cur := Rpart cur_rt
  let T_cur := Tpart cur_rt + camera_offset
  vicPastLoop cv H K plane_normal plane_distance patch_size images t R_cur T_cur
    (List.range' 1 (history_size - 1)) odom1

/-- One timestep's emitted patch list: the anchor patch (current image warped
through the calibrated `H`) followed by the emitted history patches. -/
def vicTimestep [FloorRing F] {Img : Type} (cv : CV F Img) (H K : Mat3 F)
    (plane_normal : Vec3 F) (plane_distance : F) (patch_size : ℕ × ℕ)
    (images : ℕ → Img) (history_size : ℕ) (odom : List (Mat4 F)) (t : ℕ) :
    List (Mat4 F) × List Img :=
  let r := vicTimestepOpts cv H K plane_normal plane_distance patch_size images
    history_size odom t
  (r.1, warpResize cv (images t) H patch_size :: r.2.reduceOption)

/-- Outer loop of `ComputeVicRegData` over the processed timesteps. -/
def vicLoop [FloorRing F] {Img : Type} (cv : CV F Img) (H K : Mat3 F)
    (plane_normal : Vec3 F) (plane_distance : F) (patch_size : ℕ × ℕ)
    (images : ℕ → Img) (history_size : ℕ) :
    List ℕ → List (Mat4 F) → List (Mat4 F) × List (List Img)
  | [], odom => (odom, [])
  | t :: ts, odom =>
    let r := vicTimestep cv H K plane_normal plane_distance patch_size images
      history_size odom t
    let rest := vicLoop cv H K plane_normal plane_distance patch_size images
      history_size ts r.1
    (rest.1, r.2 :: rest.2)

/-- Embedding of `ComputeVicRegData` (`vicreg_dataset.py`, lines 16–85):
iterate over timesteps `history_size .. n_timesteps - 1`; the first component
is the odometry store after the run (the source mutates it through the
in-place `+=`), the second the per-timestep patch lists the function
returns. -/
def ComputeVicRegData [FloorRing F] {Img : Type} (cv : CV F Img) (H K : Mat3 F)
    (plane_normal : Vec3 F) (plane_distance : F) (odom : List (Mat4 F))
    (images : ℕ → Img) (n_timesteps history_size : ℕ) (patch_size : ℕ × ℕ) :
    List (Mat4 F) × List (List Img) :=
  vicLoop cv H K plane_normal plane_distance patch_size images history_size
    (List.range' history_size (n_timesteps - history_size)) odom

lemma vicPastLoop_opts_length [FloorRing F] {Img : Type} (cv : CV F Img) (H K : Mat3 F)
    (plane_normal : Vec3 F) (plane_distance : F) (patch_size : ℕ × ℕ)
    (images : ℕ → Img) (t : ℕ) (R_cur : Mat3 F) (T_cur : Vec3 F) :
    ∀ (offsets : List ℕ) (odom : List (Mat4 F)),
      (vicPastLoop cv H K plane_normal plane_distance patch_size images t R_cur T_cur
        offsets odom).2.length = offsets.length := by
  intro offsets
  induction offsets with
  | nil => intro odom; rfl
  | cons h hs ih =>
    intro odom
    rw [vicPastLoop]
    by_cases hth : t < h
    · rw [if_pos hth]
      simp [ih]
    · rw [if_neg hth]
      simp [ih]

lemma reduceOption_length_lt_of_none {α : Type} :
    ∀ l : List (Option α), none ∈ l → l.reduceOption.length < l.length := by
  intro l h
  induction l with
  | nil => cases h
  | cons x xs ih =>
    cases x with
    | none =>
      rw [List.reduceOption_cons_of_none, List.length_cons]
      exact Nat.lt_succ_of_le (List.reduceOption_length_le xs)
    | some a =>
      have hx : none ∈ xs := by
        rcases List.mem_cons.mp h with h' | h'
        · cases h'
        · exact h'
      rw [List.reduceOption_cons_of_some, List.length_cons, List.length_cons]
      exact Nat.succ_lt_succ (ih hx)

lemma vicTimestep_length_le [FloorRing F] {Img : Type} (cv : CV F Img) (H K : Mat3 F)
    (plane_normal : Vec3 F) (plane_distance : F) (patch_size : ℕ × ℕ)
    (images : ℕ → Img) (history_size : ℕ) (hN : 1 ≤ history_size)
    (odom : List (Mat4 F)) (t : ℕ) :
    (vicTimestep cv H K plane_normal plane_distance patch_size images history_size
      odom t).2.length ≤ history_size := by
  have hopts := vicPastLoop_opts_length cv H K plane_normal plane_distance patch_size
    images t (Rpart (odom.getD t 1)) (Tpart (odom.getD t 1) + camera_offset)
    (List.range' 1 (history_size - 1)) (odom.set t (addCamOffset (odom.getD t 1)))
  have hred := List.reduceOption_length_le
    (vicTimestepOpts cv H K plane_normal plane_distance patch_size images history_size
      odom t).2
  have hlen : (vicTimestepOpts cv H K plane_normal plane_distance patch_size images
      history_size odom t).2.length = history_size - 1 := by
    rw [vicTimestepOpts]
    rw [hopts, List.length_range']
  simp only [vicTimestep, List.length_cons]
  omega

/-- C4: per-timestep history bound of the sampler.  First part: every patch
list emitted by `ComputeVicRegData` holds at most `history_size` patches (the
anchor plus at most `history_size - 1` history patches).  Second part: a
timestep's list is strictly shorter than `history_size` whenever some history
offset was skipped (recorded as a `none` entry; for processed timesteps
`t ≥ history_size` the `past_timestep < 0` branch is unreachable, so a `none`
is precisely a failed overlap test) — skipped offsets simply emit nothing, no
error is raised. -/
theorem c4_history_bound {Img : Type} (cv : CV ℚ Img) (H K : Mat3 ℚ)
    (plane_normal : Vec3 ℚ) (plane_distance : ℚ) (odom : List (Mat4 ℚ))
    (images : ℕ → Img) (n_timesteps history_size : ℕ) (patch_size : ℕ × ℕ)
    (hN : 1 ≤ history_size) :
    (∀ L ∈ (ComputeVicRegData cv H K plane_normal plane_distance odom images
        n_timesteps history_size patch_size).2, L.length ≤ history_size)
  ∧ (∀ (odom₀ : List (Mat4 ℚ)) (t : ℕ),
      none ∈ (vicTimestepOpts cv H K plane_normal plane_distance patch_size images
        history_size odom₀ t).2 →
      (vicTimestep cv H K plane_normal plane_distance patch_size images
        history_size odom₀ t).2.length < history_size) := by
  constructor
  · have hloop : ∀ (ts : List ℕ) (odom' : List (Mat4 ℚ)),
        ∀ L ∈ (vicLoop cv H K plane_normal plane_distance patch_size images
          history_size ts odom').2, L.length ≤ history_size := by
      intro ts
      induction ts with
      | nil => intro odom' L hL; cases hL
      | cons t ts ih =>
        intro odom' L hL
        rw [vicLoop] at hL
        rcases List.mem_cons.mp hL with h | h
        · subst h
          exact vicTimestep_length_le cv H K plane_normal plane_distance patch_size
            images history_size hN odom' t
        · exact ih _ L h
    intro L hL
    exact hloop _ odom L hL
  · intro odom₀ t hnone
    have hopts : (vicTimestepOpts cv H K plane_normal plane_distance patch_size images
        history_size odom₀ t).2.length = history_size - 1 := by
      rw [vicTimestepOpts]
      rw [vicPastLoop_opts_length, List.length_range']
    have hred := reduceOption_length_lt_of_none _ hnone
    simp only [vicTimestep, List.length_cons]
    omega

/-- Trivial OpenCV collaborator over unit images, for concrete runs. -/
def cvUnit : CV ℚ Unit := ⟨fun _ _ _ => (), fun _ _ => (), fun _ => []⟩

/-- Witness for C4 at a concrete run: `history_size = 2`, two poses. -/
theorem c4_witness :
    1 ≤ 2 ∧
    ((∀ L ∈ (ComputeVicRegData cvUnit 1 1 ![0, 0, 1] 1 [1, 1] (fun _ => ())
        2 2 (1, 1)).2, L.length ≤ 2)
  ∧ (∀ (odom₀ : List (Mat4 ℚ)) (t : ℕ),
      none ∈ (vicTimestepOpts cvUnit 1 1 ![0, 0, 1] 1 (1, 1) (fun _ => ())
        2 odom₀ t).2 →
      (vicTimestep cvUnit 1 1 ![0, 0, 1] 1 (1, 1) (fun _ => ())
        2 odom₀ t).2.length < 2)) :=
  ⟨by decide, c4_history_bound cvUnit 1 1 ![0, 0, 1] 1 [1, 1] (fun _ => ())
    2 2 (1, 1) (by decide)⟩

/-- C2 (refuting theorem): running the sampler mutates the robot data
source's stored odometry.  With two identity poses and `history_size = 1`,
after `ComputeVicRegData` runs the stored pose at timestep 1 has translation
entry `x = 0.2286` — the in-place `T_cur += camera_offset` wrote the lever
arm through the numpy view into the store, which held 0 there before the
run. -/
theorem c2_sampler_mutates_odometry :
    ((ComputeVicRegData cvUnit 1 1 ![0, 0, 1] 1 [1, 1] (fun _ => ())
        2 1 (1, 1)).1).getD 1 1 0 3 = 2286 / 10000
  ∧ (1 : Mat4 ℚ) 0 3 = 0
  ∧ (2286 / 10000 : ℚ) ≠ 0 := by
  refine ⟨?_, ?_, by norm_num⟩
  · have hrange : (2 : ℕ) - 1 = 1 := by norm_num
    rw [ComputeVicRegData, hrange, List.range'_one]
    rw [vicLoop, vicLoop]
    simp only [vicTimestep, vicTimestepOpts]
    have h10 : (1 : ℕ) - 1 = 0 := rfl
    rw [h10, List.range']
    rw [vicPastLoop]
    simp only [List.getD, List.set_cons_succ, List.set_cons_zero,
      List.get?_cons_succ, List.get?_cons_zero, Option.getD_some]
    rw [addCamOffset]
    rw [Matrix.of_apply, dif_pos (by decide : ((0 : Fin 4) : ℕ) < 3 ∧ ((3 : Fin 4) : ℕ) = 3)]
    rw [Matrix.one_apply_ne (by decide : (0 : Fin 4) ≠ 3)]
    norm_num [camera_offset, Fin.zero_eta]
  · exact Matrix.one_apply_ne (by decide : (0 : Fin 4) ≠ 3)

/-! ### Chessboard calibration construction (`homography_from_chessboard.py`) -/

/-- Python exception classes relevant to the calibration path.
`CalibrationError` is the class the spec postulates; it exists nowhere in the
source.  `AttributeError` is what `None.reshape(-1, 2)` raises. -/
inductive PyErr where
  | attributeError
  | calibrationError
deriving DecidableEq

/-- Modelled from the spec: `decompose_homography` is imported from
`homography_utils.py`, which is not under `src/`.  Per spec §4.2 it performs
the decomposition embedded in-source as `decompose_homography_return_rt`
(taking `K` and inverting it for the spec's `K⁻¹·h` products) and additionally
returns the plane normal (third row of the rotation) and the plane distance
(third component of the translation). -/
def decompose_homography (sq : F → F) (svd : Mat3 F → Mat3 F × Vec3 F × Mat3 F)
    (H K : Mat3 F) : Mat4 F × Vec3 F × F :=
  let M := decompose_homography_return_rt sq svd H (mat3_inv K)
  (M, fun j => Rpart M 2 j, Tpart M 2)

/-- The `transform_points` method (`homography_from_chessboard.py`, lines
104–108): `hom_to_cart (H @ cart_to_hom points)`, written pointwise over the
point list. -/
def transform_points (points : List (F × F)) (H : Mat3 F) : List (F × F) :=
  perspectiveTransform points H

/-- Modelled from the spec: `compute_model_chessboard_3d` is imported from
`homography_utils.py`, absent from `src/`; per the spec's data model it is the
2-D model grid lifted to homogeneous 3-D points on the `z = 0` plane. -/
def compute_model_chessboard_3d (rows cols : ℕ) (tile_width : F) (center_at_zero : Bool) :
    List (F × F × F × F) :=
  (compute_model_chessboard_2d rows cols tile_width center_at_zero).map fun p =>
    (p.1, p.2, 0, 1)

/-- Application `K @ RT[:3] @ point` followed by the homogeneous division, pointwise
(`validate_chessboard_3d`, lines 44–49). -/
def model_cb_3d_to_2d_points (K : Mat3 F) (RT : Mat4 F) (pts : List (F × F × F × F)) :
    List (F × F) :=
  pts.map fun p =>
    let u : Vec3 F := fun i =>
      RT i.castSucc 0 * p.1 + RT i.castSucc 1 * p.2.1 +
        RT i.castSucc 2 * p.2.2.1 + RT i.castSucc 3 * p.2.2.2
    let v : Vec3 F := fun i => K i 0 * u 0 + K i 1 * u 1 + K i 2 * u 2
    (v 0 / v 2, v 1 / v 2)

/-- State built by a successful `HomographyFromChessboardImage.__init__`. -/
structure ChessboardCalib (F : Type) (Img : Type) where
  image : Img
  corners : List (F × F)
  cb_tile_width : ℤ
  H : Mat3 F
  K : Mat3 F
  RT : Mat4 F
  plane_normal : Vec3 F
  plane_distance : F
  transformed_model_chessboard_2d : List (F × F)
  model_cb_3d_to_2d : List (F × F)

/-- Embedding of `HomographyFromChessboardImage.__init__`
(`homography_from_chessboard.py`, lines 13–37).  The OpenCV collaborators
`cv2.cvtColor`, `cv2.findChessboardCorners` (returning `(ret, corners)` with
`corners = None` on failure) and `cv2.findHomography` are parameters, as are
the numpy square root and SVD.  The source never inspects `ret`: on a failed
detection `corners.reshape(-1, 2)` is executed on `None` and the constructor
dies with `AttributeError` before anything else is computed. -/
def HomographyFromChessboardImage_init [FloorRing F] {Img : Type}
    (cvtColor : Img → Img)
    (findChessboardCorners : Img → ℕ × ℕ → Bool × Option (List (F × F)))
    (findHomography : List (F × F) → List (F × F) → Mat3 F)
    (sq : F → F) (svd : Mat3 F → Mat3 F × Vec3 F × Mat3 F) (K : Mat3 F)
    (image : Img) (cb_rows cb_cols : ℕ) :
    Except PyErr (ChessboardCalib F Img) :=
  let gray := cvtColor image
  match findChessboardCorners gray (cb_cols, cb_rows) with
  | (_, none) => .error .attributeError
  | (_, some corners) =>
    let cb_tile_width := pyInt (chessboard_tile_width sq cb_cols corners)
    let model_chessboard_2d :=
      compute_model_chessboard_2d cb_rows cb_cols ((cb_tile_width : F)) true
    let H := findHomography model_chessboard_2d corners
    let dec := decompose_homography sq svd H K
    let transformed := transform_points model_chessboard_2d H
    let model_3d :=
      compute_model_chessboard_3d cb_rows cb_cols ((cb_tile_width : F)) true
    let m3to2 := model_cb_3d_to_2d_points K dec.1 model_3d
    .ok ⟨image, corners, cb_tile_width, H, K, dec.1, dec.2.1, dec.2.2, transformed, m3to2⟩

/-- C7 counterexample: on an image whose corner detection fails (as on an
all-black image: `cv2.findChessboardCorners` returns `(False, None)`),
`HomographyFromChessboardImage(image, 8, 6)` does not raise the spec's
`CalibrationError` — it dies with `AttributeError` from `None.reshape`. -/
theorem c7_counterexample :
    HomographyFromChessboardImage_init (fun u : Unit => u)
        (fun _ _ => (false, none)) (fun _ _ => 1) sqOne svdOne 1 () 8 6 =
      .error .attributeError
  ∧ (Except.error PyErr.attributeError ≠
      (Except.error PyErr.calibrationError : Except PyErr (ChessboardCalib ℚ Unit))) := by
  refine ⟨rfl, fun h => ?_⟩
  injection h with h'
  exact absurd h' (by decide)

/-- C7 (amended): whenever corner detection fails (returns `None` corners,
e.g. on an all-black image, insufficient contrast or wrong grid dimensions),
the constructor raises `AttributeError` — the unhandled `None.reshape` — and
produces no partial result: no homography, rigid transform, plane normal or
distance is built or exposed.  The spec's `CalibrationError` class does not
exist in the code. -/
theorem c7_detection_failure_raises {Img : Type}
    (cvtColor : Img → Img)
    (findChessboardCorners : Img → ℕ × ℕ → Bool × Option (List (ℚ × ℚ)))
    (findHomography : List (ℚ × ℚ) → List (ℚ × ℚ) → Mat3 ℚ)
    (sq : ℚ → ℚ) (svd : Mat3 ℚ → Mat3 ℚ × Vec3 ℚ × Mat3 ℚ) (K : Mat3 ℚ)
    (image : Img) (cb_rows cb_cols : ℕ) (b : Bool)
    (hfail : findChessboardCorners (cvtColor image) (cb_cols, cb_rows) = (b, none)) :
    HomographyFromChessboardImage_init cvtColor findChessboardCorners findHomography
      sq svd K image cb_rows cb_cols = .error .attributeError := by
  rw [HomographyFromChessboardImage_init, hfail]

/-- Witness for C7's amended theorem at a concretely failing detector. -/
theorem c7_witness :
    ((fun (_ : Unit) (_ : ℕ × ℕ) => ((false, none) : Bool × Option (List (ℚ × ℚ))))
        ((fun u => u) ()) (6, 8) = (false, none)) ∧
    HomographyFromChessboardImage_init (fun u : Unit => u)
      (fun _ _ => (false, none)) (fun _ _ => 1) sqOne svdOne 1 () 8 6 =
        .error .attributeError :=
  ⟨rfl, c7_detection_failure_raises (fun u => u) (fun _ _ => (false, none))
    (fun _ _ => 1) sqOne svdOne 1 () 8 6 false rfl⟩

/-! ### BEV mosaic construction and bottom trimming
(`homography_from_chessboard.py`, `plot_BEV_full` / `crop_bottom_to_content`)

Rasters are grayscale images, `List (List F)` of pixel rows (the
`len(img.shape) == 2` branch of `crop_bottom_to_content`; a color mosaic is
first collapsed to grayscale by `cv2.cvtColor`, an external collaborator). -/

/-- OpenCV `cv2.hconcat`: concatenate equal-height images left to right. -/
def hconcat (imgs : List (List (List F))) : List (List F) :=
  match imgs with
  | [] => []
  | i :: rest => rest.foldl (fun acc im => acc.zipWith (· ++ ·) im) i

/-- OpenCV `cv2.vconcat`: stack images top to bottom. -/
def vconcat (imgs : List (List (List F))) : List (List F) := imgs.flatten

/-- Embedding of `crop_bottom_to_content` (`homography_from_chessboard.py`,
lines 173–199): scan rows from the bottom up for the first row with any pixel
strictly above `threshold`; keep everything through that row
(`crop_row = row + 1`).  When no such row exists the scan falls through and
`crop_row` stays at the full height — an all-black image is returned
untrimmed. -/
def crop_bottom_to_content (img : List (List F)) (threshold : F) : List (List F) :=
  let gray := img
  let h := gray.length
  let idx := gray.reverse.findIdx fun row => row.any fun px => decide (threshold < px)
  let crop_row := if idx = h then h else h - idx
  img.take crop_row

/-- The shift lattice of `plot_BEV_full` (lines 211–230):
`np.arange(-6, 8) * 128` and `np.arange(-2, 10) * 128`, each sorted in
descending order, paired row-major (`for sy in shift_y: for sx in shift_x`). -/
def shift_pairs : List (ℤ × ℤ) :=
  let shift_step : ℤ := 128
  let shift_x := List.insertionSort (fun a b : ℤ => b ≤ a)
    ((List.range 14).map fun i : ℕ => ((i : ℤ) - 6) * shift_step)
  let shift_y := List.insertionSort (fun a b : ℤ => b ≤ a)
    ((List.range 12).map fun i : ℕ => ((i : ℤ) - 2) * shift_step)
  shift_y.flatMap fun sy => shift_x.map fun sx => (sx, sy)

/-- The mosaic of `plot_BEV_full` before the final crop (lines 232–265): warp
one patch per shift through `T_shift @ H` (resizing on a shape mismatch of
the first two shape components), group the patches into 12 rows of 14, and
concatenate. -/
def stitch_BEV (cv : CV F (List (List F))) (img : List (List F))
    (H : Mat3 F) (patch_size : ℕ × ℕ) : List (List F) :=
  let patches := shift_pairs.map fun s =>
    let T_shift : Mat3 F := !![1, 0, ((s.1 : ℤ) : F); 0, 1, ((s.2 : ℤ) : F); 0, 0, 1]
    let H_shifted := T_shift * H
    let cur_patch := cv.warpPerspective img H_shifted patch_size
    if (cv.shape cur_patch).take 2 ≠ [patch_size.1, patch_size.2] then
      cv.resize cur_patch patch_size
    else cur_patch
  let cols := 14
  let rows := 12
  let row_images := (List.range rows).map fun i =>
    hconcat ((patches.drop (i * cols)).take cols)
  vconcat row_images

/-- Embedding of `plot_BEV_full` (lines 201–270): the stitched mosaic with
its bottom cropped to content at the default threshold 1. -/
def plot_BEV_full (cv : CV F (List (List F))) (img : List (List F))
    (H : Mat3 F) (patch_size : ℕ × ℕ) : List (List F) :=
  crop_bottom_to_content (stitch_BEV cv img H patch_size) 1

lemma crop_bottom_spec (img : List (List F)) (thr : F)
    (hex : ∃ row ∈ img, row.any (fun px => decide (thr < px)) = true) :
    ∃ k lastRow, k ≤ img.length ∧ 0 < k ∧
      crop_bottom_to_content img thr = img.take k ∧
      (crop_bottom_to_content img thr).getLast? = some lastRow ∧
      lastRow.any (fun px => decide (thr < px)) = true ∧
      ∀ row ∈ img.drop k, row.any (fun px => decide (thr < px)) = false := by
  obtain ⟨row0, hmem0, hrow0⟩ := hex
  have hexrev : ∃ r ∈ img.reverse, (r.any fun px => decide (thr < px)) = true :=
    ⟨row0, List.mem_reverse.mpr hmem0, hrow0⟩
  have hidx : img.reverse.findIdx (fun row => row.any fun px => decide (thr < px)) <
      img.reverse.length :=
    List.findIdx_lt_length_of_exists hexrev
  rw [List.length_reverse] at hidx
  set idx := img.reverse.findIdx (fun row => row.any fun px => decide (thr < px)) with hidxdef
  have hrevlen : img.reverse.length = img.length := List.length_reverse img
  have hidxlt : idx < img.reverse.length := by omega
  have hcrop : crop_bottom_to_content img thr = img.take (img.length - idx) := by
    simp only [crop_bottom_to_content, ← hidxdef]
    rw [if_neg (by omega : ¬ idx = img.length)]
  refine ⟨img.length - idx, img.reverse.get ⟨idx, hidxlt⟩,
    by omega, by omega, hcrop, ?_, ?_, ?_⟩
  case _ =>
    have hsome : img.reverse[idx]? = some (img.reverse.get ⟨idx, hidxlt⟩) := by
      rw [List.getElem?_eq_getElem hidxlt, List.get_eq_getElem]
    rw [hcrop, List.getLast?_eq_getElem?, List.length_take]
    have hmin : min (img.length - idx) img.length = img.length - idx := by omega
    rw [hmin]
    have hlt : img.length - idx - 1 < img.length - idx := by omega
    rw [List.getElem?_take_of_lt hlt]
    rw [List.getElem?_reverse (by omega)] at hsome
    have harg : img.length - 1 - idx = img.length - idx - 1 := by omega
    rw [harg] at hsome
    exact hsome
  case _ =>
    have := @List.findIdx_getElem _
      (fun row => row.any fun px => decide (thr < px)) img.reverse hidxlt
    simpa [← hidxdef, List.get_eq_getElem] using this
  case _ =>
    intro row hrow
    rw [List.mem_iff_getElem?] at hrow
    obtain ⟨i, hrowi⟩ := hrow
    rw [List.getElem?_drop] at hrowi
    have hbound : img.length - idx + i < img.length := by
      by_contra hcon
      rw [List.getElem?_eq_none (by omega)] at hrowi
      cases hrowi
    set j := img.length - 1 - (img.length - idx + i) with hjdef
    have hj : j < idx := by omega
    have hfalse := @List.not_of_lt_findIdx _
      (fun row => row.any fun px => decide (thr < px))
      img.reverse j (by rw [← hidxdef]; exact hj)
    have hjlt : j < img.reverse.length := by omega
    have hrevj : img.reverse[j]? = some (img.reverse.get ⟨j, hjlt⟩) := by
      rw [List.getElem?_eq_getElem hjlt, List.get_eq_getElem]
    rw [List.getElem?_reverse (by omega)] at hrevj
    have harg : img.length - 1 - j = img.length - idx + i := by omega
    rw [harg] at hrevj
    rw [hrowi] at hrevj
    have hroweq : row = img.reverse.get ⟨j, hjlt⟩ := Option.some.inj hrevj
    rw [hroweq, List.get_eq_getElem]
    exact hfalse

/-- C10 (amended): whenever the stitched mosaic holds at least one pixel
above the brightness threshold 1, `plot_BEV_full` returns the mosaic with
every row through the last content row kept and exactly the trailing rows
below it — all of whose pixels are at or below the threshold — trimmed, so
the returned raster's last row contains a pixel above the threshold.  (An
entirely black mosaic, by contrast, is returned untrimmed, which is the case
refuting the claim as stated.) -/
theorem c10_mosaic_trim (cv : CV ℚ (List (List ℚ)))
    (img : List (List ℚ)) (H : Mat3 ℚ) (patch_size : ℕ × ℕ)
    (hex : ∃ row ∈ stitch_BEV cv img H patch_size,
      row.any (fun px => decide ((1 : ℚ) < px)) = true) :
    ∃ k lastRow, k ≤ (stitch_BEV cv img H patch_size).length ∧ 0 < k ∧
      plot_BEV_full cv img H patch_size =
        (stitch_BEV cv img H patch_size).take k ∧
      (plot_BEV_full cv img H patch_size).getLast? = some lastRow ∧
      lastRow.any (fun px => decide ((1 : ℚ) < px)) = true ∧
      ∀ row ∈ (stitch_BEV cv img H patch_size).drop k,
        row.any (fun px => decide ((1 : ℚ) < px)) = false :=
  crop_bottom_spec (stitch_BEV cv img H patch_size) 1 hex

/-- OpenCV collaborator whose warp produces 1×1 all-black patches, as warping
an all-black source image does. -/
def cvBlack : CV ℚ (List (List ℚ)) := ⟨fun _ _ _ => [[0]], fun i _ => i, fun _ => [1, 1]⟩

/-- OpenCV collaborator whose warp produces 1×1 bright patches. -/
def cvBright : CV ℚ (List (List ℚ)) := ⟨fun _ _ _ => [[2]], fun i _ => i, fun _ => [1, 1]⟩

/-- C10 counterexample: for an all-black source image every patch — hence the
whole stitched mosaic — is at the threshold, `crop_bottom_to_content` finds no
content row and returns the mosaic untrimmed (12 rows of 14 black pixels at
patch size 1×1), so the returned raster's last row contains no pixel above
the threshold, refuting the claim's unconditional "last row contains at least
one pixel above the threshold". -/
theorem c10_counterexample :
    plot_BEV_full cvBlack [[0]] 1 (1, 1) =
      List.replicate 12 (List.replicate 14 (0 : ℚ))
  ∧ (plot_BEV_full cvBlack [[0]] 1 (1, 1)).getLast? =
      some (List.replicate 14 (0 : ℚ))
  ∧ ((List.replicate 14 (0 : ℚ)).any fun px => decide ((1 : ℚ) < px)) = false := by
  refine ⟨?_, ?_, ?_⟩ <;> decide

/-- Witness for C10's amended theorem on a mosaic with bright content. -/
theorem c10_witness :
    (∃ row ∈ stitch_BEV cvBright [[2]] 1 (1, 1),
      (row.any fun px => decide ((1 : ℚ) < px)) = true) ∧
    (∃ k lastRow, k ≤ (stitch_BEV cvBright [[2]] 1 (1, 1)).length ∧ 0 < k ∧
      plot_BEV_full cvBright [[2]] 1 (1, 1) =
        (stitch_BEV cvBright [[2]] 1 (1, 1)).take k ∧
      (plot_BEV_full cvBright [[2]] 1 (1, 1)).getLast? = some lastRow ∧
      lastRow.any (fun px => decide ((1 : ℚ) < px)) = true ∧
      ∀ row ∈ (stitch_BEV cvBright [[2]] 1 (1, 1)).drop k,
        row.any (fun px => decide ((1 : ℚ) < px)) = false) := by
  have hex : ∃ row ∈ stitch_BEV cvBright [[2]] 1 (1, 1),
      (row.any fun px => decide ((1 : ℚ) < px)) = true := by decide
  exact ⟨hex, c10_mosaic_trim cvBright [[2]] 1 (1, 1) hex⟩

end Sterling
